import Mathlib

/-!
Verification development for the synapse-project agent core.

The definitions below are shallow embeddings of the Python sources:
  * `src/synapse/types.py` — message / token / tool-call data model;
  * `src/synapse_core/memoirs/json_file_memory.py` — `JSONFileMemory`
    (`add`, `close`, `_persist`, `next_pending_tool_calls`, `get_by_id`);
  * `src/synapse_core/memoirs/summarizing_json_file_memory.py` —
    `SummarizingJSONFileMemory` (`add`, `_create_summary`);
  * `src/synapse_core/context.py` — `Context.call_tool`;
  * `src/synapse_core/agent.py` — `Agent.next_stream` (the two-flag
    orchestration loop and the streamed-token assembler).

Python dictionaries preserve insertion order, so dict-valued state is
modelled as an association list in insertion order; assignment to an
existing key updates the value in place, assignment to a fresh key
appends at the end.
-/

namespace Synapse

/-- `ToolCall` dataclass from `types.py`: id, name, JSON-encoded arguments. -/
structure ToolCall where
  id : String
  name : String
  arguments : String
  deriving DecidableEq, Repr

/-- The three message shapes from `types.py`.  Each Python dataclass fixes its
`role` field (`user` / `assistant` / `tool`), so the role is the constructor.
None of the three dataclasses declares an `id` attribute. -/
inductive Message where
  | user (content : String)
  | assistant (content : String) (tool_calls : List ToolCall)
  | tool (content : String) (call_id : String)
  deriving DecidableEq, Repr

/-- `hasattr(message, "id")` as evaluated on the three dataclasses of
`types.py`: none of `UserMessage`, `AssistantMessage`, `ToolMessage`
declares an `id` field, so the attribute lookup fails on every shape. -/
def msgIdAttr : Message → Option String
  | .user _ => none
  | .assistant _ _ => none
  | .tool _ _ => none

/-! ## `next_pending_tool_calls` (json_file_memory.py lines 131–153)

The Python routine folds the message list over a `dict[str, ToolCall | None]`.
The dict is embedded as an insertion-ordered association list. -/

/-- `d[k] = v` on a Python dict: overwrite the first entry holding key `k`
in place, or append `(k, v)` when the key is absent. -/
def dictSet (d : List (String × Option ToolCall)) (k : String)
    (v : Option ToolCall) : List (String × Option ToolCall) :=
  match d with
  | [] => [(k, v)]
  | (k', v') :: rest =>
      if k' = k then (k, v) :: rest else (k', v') :: dictSet rest k v

/-- `k in d` on a Python dict. -/
def dictContains (d : List (String × Option ToolCall)) (k : String) : Bool :=
  d.any (fun p => p.1 = k)

/-- Inner loop over an assistant message's `tool_calls`: insert a call only
when its id is not yet a key of the dict. -/
def insertToolCalls (d : List (String × Option ToolCall))
    (tcs : List ToolCall) : List (String × Option ToolCall) :=
  tcs.foldl
    (fun d tc => if dictContains d tc.id then d else d ++ [(tc.id, some tc)]) d

/-- One step of the scan in `next_pending_tool_calls`: a tool message marks
its `call_id` answered (value `none`); an assistant message inserts its
not-yet-seen calls; a user message is skipped. -/
def scanMessage (d : List (String × Option ToolCall)) (m : Message) :
    List (String × Option ToolCall) :=
  match m with
  | .tool _ call_id => dictSet d call_id none
  | .assistant _ tcs => insertToolCalls d tcs
  | .user _ => d

/-- The dict built by scanning the whole log. -/
def pendingDict (messages : List Message) : List (String × Option ToolCall) :=
  messages.foldl scanMessage []

/-- `JSONFileMemory.next_pending_tool_calls`: scan the log, then keep the
values that are still live `ToolCall`s, in dict (insertion) order. -/
def next_pending_tool_calls (messages : List Message) : List ToolCall :=
  (pendingDict messages).filterMap (fun p => p.2)

/-! Spec-side definitions for the refinement part of the pending-call claim:
the flattened, id-deduplicated (first-seen) tool calls of a log. -/

/-- The tool calls of one message (assistant messages carry them). -/
def msgCalls : Message → List ToolCall
  | .assistant _ tcs => tcs
  | _ => []

/-- Flatten the tool calls of all assistant messages, in log order. -/
def flatToolCalls (messages : List Message) : List ToolCall :=
  messages.foldl (fun acc m => acc ++ msgCalls m) []

/-- One step of first-seen dedup by id. -/
def dedupStep (acc : List ToolCall) (tc : ToolCall) : List ToolCall :=
  if acc.any (fun t => t.id = tc.id) then acc else acc ++ [tc]

/-- First-seen deduplication by id, preserving order of first occurrence. -/
def dedupByIdFirstSeen (tcs : List ToolCall) : List ToolCall :=
  tcs.foldl dedupStep []

/-- A log with no tool messages. -/
def noToolMessages (messages : List Message) : Bool :=
  messages.all fun m =>
    match m with
    | .tool _ _ => false
    | _ => true

/-- A dict holding exactly the live calls `acc`, keyed by their ids. -/
def toDict (acc : List ToolCall) : List (String × Option ToolCall) :=
  acc.map fun tc => (tc.id, some tc)

/-! ### Dict well-formedness: key uniqueness and key/id agreement -/

/-- Keys of the dict, in insertion order. -/
def dictKeys (d : List (String × Option ToolCall)) : List String :=
  d.map fun p => p.1

/-- Invariant of the scan dict: keys are unique, and every live entry is
keyed by its tool call's id. -/
def dictWF (d : List (String × Option ToolCall)) : Prop :=
  (dictKeys d).Nodup ∧ ∀ k tc, (k, some tc) ∈ d → k = tc.id

/-! ## `JSONFileMemory` state (json_file_memory.py)

State components: `self.messages`, `self._index`, `self._dirty`, and the
persisted file contents (`none` = file absent). -/

structure MemState where
  messages : List Message
  index : List (String × Message)
  dirty : Bool
  disk : Option (List Message)
  deriving DecidableEq, Repr

/-- `__init__` state before the file is loaded (file absent). -/
def freshMem : MemState :=
  { messages := [], index := [], dirty := false, disk := none }

/-- `_persist`: write the file only when the dirty flag is set. -/
def memPersist (s : MemState) : MemState :=
  if s.dirty then { s with disk := some s.messages, dirty := false } else s

/-- `save`: set the dirty flag, then persist. -/
def memSave (s : MemState) : MemState :=
  memPersist { s with dirty := true }

/-- Python dict assignment on the id index. -/
def indexSet (idx : List (String × Message)) (k : String) (m : Message) :
    List (String × Message) :=
  match idx with
  | [] => [(k, m)]
  | (k', m') :: rest =>
      if k' = k then (k, m) :: rest else (k', m') :: indexSet rest k m

/-- `if hasattr(message, "id"): self._index[message.id] = message`. -/
def indexAdd (idx : List (String × Message)) (m : Message) :
    List (String × Message) :=
  match msgIdAttr m with
  | some i => indexSet idx i m
  | none => idx

/-- `JSONFileMemory.add`: append the message, index it when it has an `id`
attribute, and save only when the new length is a multiple of 10. -/
def memAdd (s : MemState) (m : Message) : MemState :=
  let s' : MemState :=
    { s with messages := s.messages ++ [m], index := indexAdd s.index m }
  if s'.messages.length % 10 == 0 then memSave s' else s'

/-- `JSONFileMemory.close`: persist pending changes (persist checks dirty). -/
def memClose (s : MemState) : MemState :=
  memPersist s

/-- `initialize`/`_load_task` on a successfully parsed file holding `msgs`:
install the messages and rebuild the id index over messages having an `id`
attribute; the dirty flag stays false. -/
def memLoad (msgs : List Message) : MemState :=
  { messages := msgs,
    index := msgs.foldl indexAdd [],
    dirty := false,
    disk := some msgs }

/-- `JSONFileMemory.get_by_id`: dict lookup in the id index. -/
def memGetById (s : MemState) (k : String) : Option Message :=
  (s.index.find? fun p => p.1 = k).map fun p => p.2

/-- `JSONFileMemory.next_pending_tool_calls` as a method: reads
`self.messages`, mutates nothing. -/
def memPending (s : MemState) : MemState × List ToolCall :=
  (s, next_pending_tool_calls s.messages)

/-- Concrete log used to witness the pending-call derivation claim. -/
def wLogC1 : List Message :=
  [Message.user "hola",
   Message.assistant "a" [⟨"1", "x", "{}"⟩, ⟨"2", "y", "{}"⟩],
   Message.assistant "b" [⟨"1", "z", "{}"⟩, ⟨"3", "w", "{}"⟩]]

/-- Concrete log used to witness the answered-view claim. -/
def wLogC6 : List Message :=
  [Message.assistant "a" [⟨"1", "x", "{}"⟩, ⟨"2", "y", "{}"⟩],
   Message.tool "done" "1",
   Message.assistant "b" [⟨"1", "x", "{}"⟩, ⟨"3", "z", "{}"⟩]]

/-! ## Streamed tokens and the token assembler (agent.py lines 80–133)

The Python buffer is a `defaultdict[int, ToolCall]`: reading a missing
index creates a slot with empty `id`/`name`/`arguments`; each fragment is
concatenated onto its slot's field; on completion the slots are sorted by
index. The buffer is embedded as an insertion-ordered association list. -/

/-- The token variants of `types.py`; each Python dataclass fixes its
`type` field, so the kind is the constructor. -/
inductive Token where
  | text (text : String)
  | tool_call_name (index : Int) (name : String)
  | tool_call_id (index : Int) (id : String)
  | tool_call_arguments (index : Int) (arguments : String)
  | chat_id (id : String)
  deriving DecidableEq, Repr

/-- `tool_calls_buffer[i]` field update: mutate the slot at key `i` in
place, creating it with empty fields when absent (defaultdict semantics). -/
def bufUpd (buf : List (Int × ToolCall)) (i : Int) (f : ToolCall → ToolCall) :
    List (Int × ToolCall) :=
  match buf with
  | [] => [(i, f ⟨"", "", ""⟩)]
  | (j, tc) :: rest =>
      if j = i then (j, f tc) :: rest else (j, tc) :: bufUpd rest i f

/-- One streamed token, folded into `(content_buffer, tool_calls_buffer)`
exactly as the `async for` body of `Agent.next_stream` does. -/
def assembleStep (st : String × List (Int × ToolCall)) (t : Token) :
    String × List (Int × ToolCall) :=
  match t with
  | .text s => (st.1 ++ s, st.2)
  | .tool_call_id i s =>
      (st.1, bufUpd st.2 i fun tc => { tc with id := tc.id ++ s })
  | .tool_call_name i s =>
      (st.1, bufUpd st.2 i fun tc => { tc with name := tc.name ++ s })
  | .tool_call_arguments i s =>
      (st.1, bufUpd st.2 i fun tc => { tc with arguments := tc.arguments ++ s })
  | .chat_id _ => st

/-- The buffers after consuming a finite stream. -/
def assemble (tokens : List Token) : String × List (Int × ToolCall) :=
  tokens.foldl assembleStep ("", [])

/-- Insert a slot into an index-sorted list. -/
def insertByIndex (p : Int × ToolCall) :
    List (Int × ToolCall) → List (Int × ToolCall)
  | [] => [p]
  | q :: rest => if p.1 ≤ q.1 then p :: q :: rest else q :: insertByIndex p rest

/-- `sorted(tool_calls_buffer.items(), key=lambda item: item[0])`. -/
def sortByIndex : List (Int × ToolCall) → List (Int × ToolCall)
  | [] => []
  | p :: rest => insertByIndex p (sortByIndex rest)

/-- Materialize the buffer into the `tool_calls` list of the assistant
message: slots in ascending index order. -/
def materialize (buf : List (Int × ToolCall)) : List ToolCall :=
  (sortByIndex buf).map fun p => p.2

/-- The slot at index `i`, empty when the index was never referenced. -/
def slotOf (buf : List (Int × ToolCall)) (i : Int) : ToolCall :=
  ((buf.find? fun p => p.1 = i).map fun p => p.2).getD ⟨"", "", ""⟩

/-- Token kinds inspected by the assembler; `chat_id` (and only it) falls
through every branch of the dispatch. -/
def tokenRelevant : Token → Bool
  | .chat_id _ => false
  | _ => true

/-! ## `Context.call_tool` (context.py lines 71–114)

The session map is an insertion-ordered list of sessions, each with its
registered tool definitions. JSON parsing of the arguments and the MCP
invocation are the external effects; each is modelled as a function that
either succeeds or fails with an exception message, so the `try/except`
blocks become `Except` matches. -/

/-- `ToolDefinition` dataclass from `types.py`; the JSON-schema-shaped
`parameters` dict is kept opaque as its serialized form. -/
structure ToolDefinition where
  name : String
  description : String
  parameters : String
  deriving DecidableEq, Repr

/-- One MCP client session: its registered tool definitions and its
`call_tool` behaviour (`Except.error` = the call raised). -/
structure Session where
  tools : List ToolDefinition
  invoke : String → String → Except String String

/-- The context environment: `json.loads` behaviour (`Except.error` = it
raised `ValueError`; `Except.ok` = the parsed arguments, kept opaque) and
the `session_tools_map` in insertion order. -/
structure CtxEnv where
  parse : String → Except String String
  sessions : List Session

/-- Loop body of `Context.call_tool` over the session map. -/
def call_tool_go (parse : String → Except String String) (tc : ToolCall) :
    List Session → Message
  | [] => .tool ("Herramienta '" ++ tc.name ++ "' no encontrada.") tc.id
  | s :: rest =>
      if s.tools.any fun t => t.name = tc.name then
        match parse tc.arguments with
        | .error e =>
            .tool ("Error parseando los parámetros de la herramienta '"
              ++ tc.name ++ "': " ++ e) tc.id
        | .ok args =>
            match s.invoke tc.name args with
            | .ok content => .tool content tc.id
            | .error e =>
                .tool ("Error ejecutando la herramienta '" ++ tc.name
                  ++ "': " ++ e) tc.id
      else call_tool_go parse tc rest

/-- `Context.call_tool`: run the tool on the first session offering it;
every failure is encoded as a `ToolMessage`. -/
def call_tool (env : CtxEnv) (tc : ToolCall) : Message :=
  call_tool_go env.parse tc env.sessions

/-- `Context.tools_definitions`: flat list over all sessions. -/
def tools_definitions (env : CtxEnv) : List ToolDefinition :=
  (env.sessions.map fun s => s.tools).flatten

/-! ## `Agent.next_stream` (agent.py lines 50–185)

The orchestration loop, with the streaming model abstracted as a function
from the message list and tool definitions to the finite token stream it
would emit. One `AgentState` is the loop state at the `while` check. -/

structure AgentState where
  log : List Message
  modelDirty : Bool
  contextDirty : Bool
  pendingCache : Option (List ToolCall)
  deriving Repr

/-- State at the first `while` check: `pending` is derived from the log;
the model is dirty only when nothing is pending. -/
def initAgent (log : List Message) : AgentState :=
  let pending := next_pending_tool_calls log
  { log := log
    modelDirty := pending.isEmpty
    contextDirty := !pending.isEmpty
    pendingCache := some pending }

/-- Result of the model phase: the next state, every token re-emitted to
the caller, and the assistant message appended to the log (if any). -/
structure ModelPhaseResult where
  state : AgentState
  emitted : List Token
  appended : Option Message

/-- Model phase of the loop body: stream the model over the full log and
the context's tool definitions, assemble the buffers, and append one
assistant message only when text or a tool-call fragment arrived. -/
def modelPhase (env : CtxEnv)
    (mdl : List Message → List ToolDefinition → List Token)
    (s : AgentState) : ModelPhaseResult :=
  let tokens := mdl s.log (tools_definitions env)
  let st := assemble tokens
  let appended : Option Message :=
    if st.1 ≠ "" ∨ st.2 ≠ [] then
      some (Message.assistant st.1 (materialize st.2))
    else none
  { state :=
      { s with
        log := s.log ++ appended.toList
        modelDirty := false
        contextDirty := !st.2.isEmpty }
    emitted := tokens
    appended := appended }

/-- Tool phase of the loop body: take the cached pending list when it is
truthy, else re-derive from the log; answer each call through the context
and append each result. -/
def toolPhase (env : CtxEnv) (s : AgentState) : AgentState × List Message :=
  let pending :=
    match s.pendingCache with
    | some l => if l.isEmpty then next_pending_tool_calls s.log else l
    | none => next_pending_tool_calls s.log
  let results := pending.map (call_tool env)
  ({ s with
      log := s.log ++ results
      modelDirty := !pending.isEmpty
      contextDirty := false
      pendingCache := none },
   results)

/-- One iteration of the `while model_dirty or context_dirty` body. -/
structure IterResult where
  state : AgentState
  modelInvoked : Bool
  emittedTokens : List Token
  appendedMessages : List Message

/-- One pass through the loop body: model phase when the model is dirty,
then tool phase when the context is dirty. -/
def loopIter (env : CtxEnv)
    (mdl : List Message → List ToolDefinition → List Token)
    (s : AgentState) : IterResult :=
  let r₁ :=
    if s.modelDirty then
      let r := modelPhase env mdl s
      (r.state, true, r.emitted, r.appended.toList)
    else (s, false, ([] : List Token), ([] : List Message))
  if r₁.1.contextDirty then
    let r₂ := toolPhase env r₁.1
    { state := r₂.1
      modelInvoked := r₁.2.1
      emittedTokens := r₁.2.2.1
      appendedMessages := r₁.2.2.2 ++ r₂.2 }
  else
    { state := r₁.1
      modelInvoked := r₁.2.1
      emittedTokens := r₁.2.2.1
      appendedMessages := r₁.2.2.2 }

/-- Parse failure used as a concrete context behaviour in witnesses. -/
def wParse : String → Except String String := fun s =>
  if s = "{}" then Except.ok "{}" else Except.error "bad json"

/-- Session that runs tool `x` successfully. -/
def wSessionOk : Session :=
  ⟨[⟨"x", "demo", "{}"⟩],
    fun n a => if n = "x" ∧ a = "{}" then Except.ok "ran"
      else Except.error "boom"⟩

/-- Session whose invocation always raises. -/
def wSessionErr : Session :=
  ⟨[⟨"x", "demo", "{}"⟩], fun _ _ => Except.error "boom"⟩

/-- Model oracle used in orchestrator witnesses: an empty stream. -/
def wMdlNull : List Message → List ToolDefinition → List Token :=
  fun _ _ => []

/-- Context with no connected sessions, used in orchestrator witnesses. -/
def wEnvEmpty : CtxEnv := ⟨fun _ => Except.error "no parse", []⟩

/-! ## `SummarizingJSONFileMemory` (summarizing_json_file_memory.py)

Log-level model of `add`/`_create_summary`; the single tunable
`summary_threshold` is both the trigger and the size of the summarized
prefix, and the model oracle is a function of the messages and the tool
definitions passed to `create_chat_stream`. -/

/-- Concatenation of the `Text` tokens of a response stream. -/
def concatTextTokens (tokens : List Token) : String :=
  tokens.foldl
    (fun acc t =>
      match t with
      | .text s => acc ++ s
      | _ => acc) ""

/-- `_create_summary`: keep the suffix past the first `summary_threshold`
messages; summarize the first `summary_threshold` messages plus the
instruction message through the model with no tool definitions, starting
the summary string with the fixed header; prepend the summary message. -/
def create_summary (mdl : List Message → List ToolDefinition → List Token)
    (sumarize_prompt : String) (summary_threshold : Nat)
    (messages : List Message) : List Message :=
  let retained := messages.drop summary_threshold
  let overflow :=
    messages.take summary_threshold ++ [Message.user sumarize_prompt]
  let summary :=
    "Resumen de la converzacion:\n" ++ concatTextTokens (mdl overflow [])
  Message.user summary :: retained

/-- `SummarizingJSONFileMemory.add` at log level: append, then summarize
when the length exceeds `summary_threshold`. -/
def summarizing_add (mdl : List Message → List ToolDefinition → List Token)
    (sumarize_prompt : String) (summary_threshold : Nat)
    (messages : List Message) (m : Message) : List Message :=
  let ms := messages ++ [m]
  if ms.length > summary_threshold then
    create_summary mdl sumarize_prompt summary_threshold ms
  else ms

/-! ### Dict lemmas -/

theorem dictSet_contains (d : List (String × Option ToolCall)) (k : String)
    (v : Option ToolCall) : dictContains (dictSet d k v) k = true := by
  induction d with
  | nil => simp [dictSet, dictContains]
  | cons p rest ih =>
      obtain ⟨k', v'⟩ := p
      by_cases h : k' = k
      · simp [dictSet, dictContains, h]
      · simpa [dictSet, dictContains, h] using ih

theorem insertToolCalls_of_contains (d : List (String × Option ToolCall))
    (tc : ToolCall) (h : dictContains d tc.id = true) :
    insertToolCalls d [tc] = d := by
  simp [insertToolCalls, h]

theorem dictContains_toDict (acc : List ToolCall) (k : String) :
    dictContains (toDict acc) k = acc.any (fun t => t.id = k) := by
  induction acc with
  | nil => rfl
  | cons tc rest ih =>
      simp only [toDict, dictContains, List.map_cons, List.any_cons] at ih ⊢
      rw [ih]

theorem filterMap_snd_toDict (acc : List ToolCall) :
    (toDict acc).filterMap (fun p => p.2) = acc := by
  induction acc with
  | nil => rfl
  | cons tc rest ih => simpa [toDict] using ih

theorem step_toDict (acc : List ToolCall) (tc : ToolCall) :
    (if dictContains (toDict acc) tc.id = true then toDict acc
      else toDict acc ++ [(tc.id, some tc)]) = toDict (dedupStep acc tc) := by
  rw [dictContains_toDict]
  by_cases h : acc.any (fun t => t.id = tc.id) = true
  · simp [dedupStep, h]
  · simp [dedupStep, h, toDict]

theorem insertToolCalls_toDict (tcs : List ToolCall) (acc : List ToolCall) :
    insertToolCalls (toDict acc) tcs = toDict (tcs.foldl dedupStep acc) := by
  induction tcs generalizing acc with
  | nil => rfl
  | cons tc rest ih =>
      simp only [insertToolCalls, List.foldl_cons]
      rw [step_toDict]
      exact ih (dedupStep acc tc)

theorem flat_aux (L : List Message) (a : List ToolCall) :
    L.foldl (fun acc m => acc ++ msgCalls m) a = a ++ flatToolCalls L := by
  induction L generalizing a with
  | nil => simp [flatToolCalls]
  | cons m L ih =>
      rw [flatToolCalls, List.foldl_cons, List.foldl_cons, ih, List.nil_append,
        ih (msgCalls m), List.append_assoc]

theorem flat_cons (m : Message) (L : List Message) :
    flatToolCalls (m :: L) = msgCalls m ++ flatToolCalls L := by
  rw [flatToolCalls, List.foldl_cons, List.nil_append, flat_aux]

/-- Scanning a tool-message-free log from a dict of live calls `acc` is
first-seen dedup of its flattened tool calls, continued from `acc`. -/
theorem scan_noTool (L : List Message) (acc : List ToolCall)
    (h : noToolMessages L = true) :
    L.foldl scanMessage (toDict acc) =
      toDict ((flatToolCalls L).foldl dedupStep acc) := by
  induction L generalizing acc with
  | nil => simp [flatToolCalls]
  | cons m L ih =>
      have hm : noToolMessages L = true ∧
          (∀ c i, m ≠ Message.tool c i) := by
        cases m <;> simp_all [noToolMessages]
      rw [List.foldl_cons, flat_cons, List.foldl_append]
      have hscan : scanMessage (toDict acc) m =
          toDict ((msgCalls m).foldl dedupStep acc) := by
        cases m with
        | user c => rfl
        | assistant c tcs => exact insertToolCalls_toDict tcs acc
        | tool c i => exact absurd rfl (hm.2 c i)
      rw [hscan]
      exact ih _ hm.1

theorem mem_dictSet_weak {d : List (String × Option ToolCall)} {k : String}
    {v : Option ToolCall} {p : String × Option ToolCall}
    (h : p ∈ dictSet d k v) : p = (k, v) ∨ p ∈ d := by
  induction d with
  | nil => simpa [dictSet] using h
  | cons q rest ih =>
      obtain ⟨k', v'⟩ := q
      by_cases hk : k' = k
      · rcases (by simpa [dictSet, hk] using h : p = (k, v) ∨ p ∈ rest) with h' | h'
        · exact Or.inl h'
        · exact Or.inr (List.mem_cons_of_mem _ h')
      · rcases (by simpa [dictSet, hk] using h :
            p = (k', v') ∨ p ∈ dictSet rest k v) with h' | h'
        · exact Or.inr (by simp [h'])
        · rcases ih h' with h'' | h''
          · exact Or.inl h''
          · exact Or.inr (List.mem_cons_of_mem _ h'')

theorem dictContains_iff_mem_keys (d : List (String × Option ToolCall))
    (k : String) : dictContains d k = true ↔ k ∈ dictKeys d := by
  induction d with
  | nil => simp [dictContains, dictKeys]
  | cons q rest ih =>
      simp only [dictContains, List.any_cons, Bool.or_eq_true, dictKeys,
        List.map_cons, List.mem_cons]
      constructor
      · rintro (h | h)
        · exact Or.inl (of_decide_eq_true h).symm
        · exact Or.inr (ih.mp h)
      · rintro (h | h)
        · exact Or.inl (by simp [h])
        · exact Or.inr (ih.mpr h)

theorem dictSet_of_not_contains {d : List (String × Option ToolCall)}
    {k : String} (v : Option ToolCall) (h : dictContains d k = false) :
    dictSet d k v = d ++ [(k, v)] := by
  induction d with
  | nil => rfl
  | cons q rest ih =>
      obtain ⟨k', v'⟩ := q
      simp only [dictContains, List.any_cons, Bool.or_eq_false_iff] at h
      have hk : k' ≠ k := by simpa using h.1
      rw [dictSet, if_neg hk, ih h.2, List.cons_append]

theorem dictKeys_dictSet_of_contains {d : List (String × Option ToolCall)}
    {k : String} (v : Option ToolCall) (h : dictContains d k = true) :
    dictKeys (dictSet d k v) = dictKeys d := by
  induction d with
  | nil => simp [dictContains] at h
  | cons q rest ih =>
      obtain ⟨k', v'⟩ := q
      by_cases hk : k' = k
      · simp [dictSet, hk, dictKeys]
      · simp only [dictContains, List.any_cons, Bool.or_eq_true] at h
        rcases h with h | h
        · exact absurd (by simpa using h) hk
        · simp only [dictSet, if_neg hk, dictKeys, List.map_cons]
          rw [show List.map (fun p => p.1) (dictSet rest k v) =
            dictKeys (dictSet rest k v) from rfl, ih h]
          rfl

theorem nodup_dictKeys_dictSet {d : List (String × Option ToolCall)}
    {k : String} (v : Option ToolCall) (h : (dictKeys d).Nodup) :
    (dictKeys (dictSet d k v)).Nodup := by
  by_cases hc : dictContains d k = true
  · rw [dictKeys_dictSet_of_contains v hc]; exact h
  · rw [dictSet_of_not_contains v (by simpa using hc)]
    have hk : k ∉ dictKeys d := fun hmem =>
      hc ((dictContains_iff_mem_keys d k).mpr hmem)
    have hkeys : dictKeys (d ++ [(k, v)]) = dictKeys d ++ [k] := by
      simp [dictKeys]
    rw [hkeys, List.nodup_append]
    refine ⟨h, List.nodup_singleton k, fun a ha hb => ?_⟩
    rw [List.mem_singleton] at hb
    subst hb
    exact hk ha

theorem mem_dictSet_strong {d : List (String × Option ToolCall)} {k : String}
    {v : Option ToolCall} {p : String × Option ToolCall}
    (hnd : (dictKeys d).Nodup) (h : p ∈ dictSet d k v) :
    p = (k, v) ∨ (p ∈ d ∧ p.1 ≠ k) := by
  induction d with
  | nil => simp_all [dictSet]
  | cons q rest ih =>
      obtain ⟨k', v'⟩ := q
      have hnd' : (dictKeys rest).Nodup := (List.nodup_cons.mp hnd).2
      by_cases hk : k' = k
      · subst hk
        rcases (by simpa [dictSet] using h : p = (k', v) ∨ p ∈ rest) with h' | h'
        · exact Or.inl h'
        · refine Or.inr ⟨List.mem_cons_of_mem _ h', fun hp => ?_⟩
          have : k' ∈ dictKeys rest := by
            rw [← hp]; exact List.mem_map_of_mem _ h'
          exact (List.nodup_cons.mp hnd).1 this
      · rcases (by simpa [dictSet, hk] using h :
            p = (k', v') ∨ p ∈ dictSet rest k v) with h' | h'
        · exact Or.inr ⟨by simp [h'], by simp [h', hk]⟩
        · rcases ih hnd' h' with h'' | h''
          · exact Or.inl h''
          · exact Or.inr ⟨List.mem_cons_of_mem _ h''.1, h''.2⟩

theorem dictWF_dictSet_none {d : List (String × Option ToolCall)} {k : String}
    (h : dictWF d) : dictWF (dictSet d k none) := by
  refine ⟨nodup_dictKeys_dictSet none h.1, fun k' tc hmem => ?_⟩
  rcases mem_dictSet_weak hmem with h' | h'
  · exact absurd h' (by simp)
  · exact h.2 k' tc h'

theorem dictWF_insertToolCalls {d : List (String × Option ToolCall)}
    (tcs : List ToolCall) (h : dictWF d) : dictWF (insertToolCalls d tcs) := by
  induction tcs generalizing d with
  | nil => exact h
  | cons tc rest ih =>
      simp only [insertToolCalls, List.foldl_cons]
      by_cases hc : dictContains d tc.id = true
      · rw [if_pos hc]
        exact ih h
      · rw [if_neg hc]
        refine ih ⟨?_, fun k' tc' hmem => ?_⟩
        · have hk : tc.id ∉ dictKeys d := fun hmem =>
            hc ((dictContains_iff_mem_keys d tc.id).mpr hmem)
          have hkeys : dictKeys (d ++ [(tc.id, some tc)]) =
              dictKeys d ++ [tc.id] := by
            simp [dictKeys]
          rw [hkeys, List.nodup_append]
          refine ⟨h.1, List.nodup_singleton _, fun a ha hb => ?_⟩
          rw [List.mem_singleton] at hb
          subst hb
          exact hk ha
        · rcases List.mem_append.mp hmem with h' | h'
          · exact h.2 k' tc' h'
          · have : k' = tc.id ∧ tc' = tc := by simpa using h'
            rw [this.1, this.2]

theorem dictWF_scanMessage {d : List (String × Option ToolCall)} (m : Message)
    (h : dictWF d) : dictWF (scanMessage d m) := by
  cases m with
  | user c => exact h
  | assistant c tcs => exact dictWF_insertToolCalls tcs h
  | tool c i => exact dictWF_dictSet_none h

theorem dictWF_pendingDict (L : List Message) : dictWF (pendingDict L) := by
  have : ∀ d, dictWF d → dictWF (L.foldl scanMessage d) := by
    induction L with
    | nil => exact fun d h => h
    | cons m L ih =>
        intro d h
        rw [List.foldl_cons]
        exact ih _ (dictWF_scanMessage m h)
  exact this [] ⟨List.nodup_nil, by simp⟩

theorem filterMap_snd_eq_nil_of_no_some
    {d : List (String × Option ToolCall)}
    (h : ∀ k tc, (k, some tc) ∈ d → False) :
    d.filterMap (fun p => p.2) = [] := by
  induction d with
  | nil => rfl
  | cons q rest ih =>
      obtain ⟨k, v⟩ := q
      cases v with
      | none =>
          simp only [List.filterMap_cons_none]
          exact ih fun k tc hmem => h k tc (List.mem_cons_of_mem _ hmem)
      | some tc => exact absurd (List.mem_cons_self _ _) (h k tc ·)

/-- Folding `d[id] = answered` over a covering set of calls leaves no live
entry in the dict. -/
theorem answered_fold_filterMap (tcs : List ToolCall) :
    ∀ d : List (String × Option ToolCall), (dictKeys d).Nodup →
    (∀ k tc, (k, some tc) ∈ d → tc ∈ tcs ∧ k = tc.id) →
    ((tcs.foldl (fun d tc => dictSet d tc.id none) d).filterMap
      (fun p => p.2)) = [] := by
  induction tcs with
  | nil =>
      intro d _ h
      exact filterMap_snd_eq_nil_of_no_some
        (fun k tc hmem => by simpa using (h k tc hmem).1)
  | cons tc rest ih =>
      intro d hnd h
      rw [List.foldl_cons]
      refine ih (dictSet d tc.id none) (nodup_dictKeys_dictSet none hnd)
        (fun k tc' hmem => ?_)
      rcases mem_dictSet_strong hnd hmem with h' | h'
      · exact absurd h' (by simp)
      · rcases h k tc' h'.1 with ⟨hmem', hid⟩
        have hne : tc' ≠ tc := fun e => h'.2 (by rw [hid, e])
        refine ⟨?_, hid⟩
        rcases List.mem_cons.mp hmem' with e | hm
        · exact absurd e hne
        · exact hm

theorem indexAdd_eq (idx : List (String × Message)) (m : Message) :
    indexAdd idx m = idx := by
  cases m <;> rfl

theorem memAdd_index (s : MemState) (m : Message) :
    (memAdd s m).index = s.index := by
  unfold memAdd memSave memPersist
  simp only [indexAdd_eq, List.length_append, List.length_cons,
    List.length_nil, beq_iff_eq]
  split <;> rfl

theorem memLoad_index (msgs : List Message) : (memLoad msgs).index = [] := by
  unfold memLoad
  induction msgs with
  | nil => rfl
  | cons m rest ih =>
      simpa [List.foldl_cons, indexAdd_eq] using ih

/-- Core of the answered-view property: appending one matching tool message
per pending call empties the pending view. -/
theorem pending_after_answers (L : List Message) (f : ToolCall → String) :
    next_pending_tool_calls
      (L ++ (next_pending_tool_calls L).map fun tc =>
        Message.tool (f tc) tc.id) = [] := by
  have hwf := dictWF_pendingDict L
  have key : pendingDict
      (L ++ (next_pending_tool_calls L).map fun tc =>
        Message.tool (f tc) tc.id) =
      (next_pending_tool_calls L).foldl
        (fun d tc => dictSet d tc.id none) (pendingDict L) := by
    show (L ++ _).foldl scanMessage [] = _
    rw [List.foldl_append, List.foldl_map]
    rfl
  show (pendingDict _).filterMap (fun p => p.2) = []
  rw [key]
  exact answered_fold_filterMap (next_pending_tool_calls L) (pendingDict L)
    hwf.1 (fun k tc hmem =>
      ⟨List.mem_filterMap.mpr ⟨(k, some tc), hmem, rfl⟩, hwf.2 k tc hmem⟩)

/-- C1: `next_pending_tool_calls` replays the log: a `ToolMessage` marks its
`call_id` answered and a later `AssistantMessage` reusing that id does not
resurrect it; and on a log with no tool messages the result is the
flattened, id-deduplicated (first-seen) sequence of the assistant messages'
tool calls, in first-seen order. -/
theorem next_pending_tool_calls_spec (L : List Message) :
    (∀ c c' tc,
      next_pending_tool_calls
          (L ++ [Message.tool c tc.id, Message.assistant c' [tc]]) =
        next_pending_tool_calls (L ++ [Message.tool c tc.id])) ∧
    (noToolMessages L = true →
      next_pending_tool_calls L = dedupByIdFirstSeen (flatToolCalls L)) := by
  constructor
  · intro c c' tc
    show (pendingDict _).filterMap (fun p => p.2) =
      (pendingDict _).filterMap (fun p => p.2)
    congr 1
    show (L ++ _).foldl scanMessage [] = (L ++ _).foldl scanMessage []
    rw [List.foldl_append, List.foldl_append]
    show insertToolCalls
      (dictSet (L.foldl scanMessage []) tc.id none) [tc] =
      dictSet (L.foldl scanMessage []) tc.id none
    exact insertToolCalls_of_contains _ tc (dictSet_contains _ tc.id none)
  · intro h
    show (pendingDict _).filterMap (fun p => p.2) = _
    rw [show pendingDict L = L.foldl scanMessage (toDict []) from rfl,
      scan_noTool L [] h, filterMap_snd_toDict]
    rfl

/-- Witness for the pending-call derivation claim at a concrete log. -/
theorem next_pending_tool_calls_spec_witness :
    noToolMessages wLogC1 = true ∧
    next_pending_tool_calls wLogC1 = dedupByIdFirstSeen (flatToolCalls wLogC1) ∧
    next_pending_tool_calls wLogC1 =
      [⟨"1", "x", "{}"⟩, ⟨"2", "y", "{}"⟩, ⟨"3", "w", "{}"⟩] :=
  ⟨by decide, (next_pending_tool_calls_spec wLogC1).2 (by decide), by decide⟩

/-- C6: the pending view is pure and idempotent: the method leaves the
memory state unchanged, a second call returns the same list, and once a
matching `ToolMessage` is appended for every pending id the view is empty. -/
theorem next_pending_idempotent_view (s : MemState) (f : ToolCall → String) :
    (memPending s).1 = s ∧
    (memPending (memPending s).1).2 = (memPending s).2 ∧
    next_pending_tool_calls
      (s.messages ++ (next_pending_tool_calls s.messages).map fun tc =>
        Message.tool (f tc) tc.id) = [] :=
  ⟨rfl, rfl, pending_after_answers s.messages f⟩

/-- Witness for the answered-view claim at a concrete log with one answered
and two live calls. -/
theorem next_pending_idempotent_view_witness :
    next_pending_tool_calls wLogC6 = [⟨"2", "y", "{}"⟩, ⟨"3", "z", "{}"⟩] ∧
    next_pending_tool_calls
      (wLogC6 ++ (next_pending_tool_calls wLogC6).map fun tc =>
        Message.tool "ok" tc.id) = [] :=
  ⟨by decide,
    (next_pending_idempotent_view
      { messages := wLogC6, index := [], dirty := false, disk := none }
      (fun _ => "ok")).2.2⟩

/-- C9: `get_by_id` always misses: no message shape carries an `id`
attribute, so the id index is never populated by `add` or by load, whether
starting fresh or from a loaded file. -/
theorem memGetById_always_none (msgs adds : List Message) (k : String) :
    memGetById (adds.foldl memAdd (memLoad msgs)) k = none ∧
    memGetById (adds.foldl memAdd freshMem) k = none := by
  have hidx : ∀ s : MemState, (adds.foldl memAdd s).index = s.index := by
    induction adds with
    | nil => intro s; rfl
    | cons m rest ih =>
        intro s
        rw [List.foldl_cons, ih, memAdd_index]
  constructor
  · show ((adds.foldl memAdd (memLoad msgs)).index.find?
      fun p => p.1 = k).map (fun p => p.2) = none
    rw [hidx, memLoad_index]
    rfl
  · show ((adds.foldl memAdd freshMem).index.find?
      fun p => p.1 = k).map (fun p => p.2) = none
    rw [hidx]
    rfl

/-- C5 (code bug): after `add` returns, the message need not be on disk, and
even `close` does not write it: adding one message to a fresh memory defers
the save (length 1 is not a multiple of 10) and never sets the dirty flag,
so `close` flushes nothing and the message is lost. -/
theorem add_then_close_loses_message :
    (memClose (memAdd freshMem (Message.user "hola"))).disk = none ∧
    (memAdd freshMem (Message.user "hola")).messages =
      [Message.user "hola"] ∧
    (memAdd freshMem (Message.user "hola")).dirty = false :=
  ⟨rfl, rfl, rfl⟩

theorem slotOf_bufUpd (buf : List (Int × ToolCall)) (i : Int)
    (f : ToolCall → ToolCall) : slotOf (bufUpd buf i f) i = f (slotOf buf i) := by
  induction buf with
  | nil => simp [bufUpd, slotOf]
  | cons q rest ih =>
      obtain ⟨j, tc⟩ := q
      by_cases h : j = i
      · subst h
        simp [bufUpd, slotOf, List.find?]
      · simp only [bufUpd, if_neg h]
        rw [slotOf, slotOf, List.find?, List.find?]
        have : (decide ((j, tc).1 = i)) = false := by simpa using h
        rw [this]
        exact ih

theorem mem_insertByIndex {q p : Int × ToolCall} {l : List (Int × ToolCall)}
    (h : q ∈ insertByIndex p l) : q = p ∨ q ∈ l := by
  induction l with
  | nil => simpa [insertByIndex] using h
  | cons r rest ih =>
      by_cases hle : p.1 ≤ r.1
      · rcases (by simpa [insertByIndex, hle] using h :
            q = p ∨ q = r ∨ q ∈ rest) with h' | h'
        · exact Or.inl h'
        · exact Or.inr (List.mem_cons.mpr h')
      · rcases (by simpa [insertByIndex, hle] using h :
            q = r ∨ q ∈ insertByIndex p rest) with h' | h'
        · exact Or.inr (by simp [h'])
        · rcases ih h' with h'' | h''
          · exact Or.inl h''
          · exact Or.inr (List.mem_cons_of_mem _ h'')

theorem sorted_insertByIndex (p : Int × ToolCall) (l : List (Int × ToolCall))
    (h : l.Pairwise fun a b => a.1 ≤ b.1) :
    (insertByIndex p l).Pairwise fun a b => a.1 ≤ b.1 := by
  induction l with
  | nil => simp [insertByIndex]
  | cons q rest ih =>
      rcases List.pairwise_cons.mp h with ⟨hq, hrest⟩
      by_cases hle : p.1 ≤ q.1
      · rw [insertByIndex, if_pos hle]
        refine List.pairwise_cons.mpr ⟨?_, h⟩
        intro r hr
        rcases List.mem_cons.mp hr with h' | h'
        · rw [h']; exact hle
        · exact le_trans hle (hq r h')
      · rw [insertByIndex, if_neg hle]
        refine List.pairwise_cons.mpr ⟨?_, ih hrest⟩
        intro r hr
        rcases mem_insertByIndex hr with h' | h'
        · rw [h']; exact le_of_not_le hle
        · exact hq r h'

theorem sorted_sortByIndex (l : List (Int × ToolCall)) :
    (sortByIndex l).Pairwise fun a b => a.1 ≤ b.1 := by
  induction l with
  | nil => simp [sortByIndex]
  | cons p rest ih => exact sorted_insertByIndex p _ ih

theorem assembleStep_irrelevant {t : Token} (st : String × List (Int × ToolCall))
    (h : tokenRelevant t = false) : assembleStep st t = st := by
  cases t <;> simp_all [tokenRelevant, assembleStep]

theorem assemble_foldl_filter (ts : List Token)
    (st : String × List (Int × ToolCall)) :
    ts.foldl assembleStep st = (ts.filter tokenRelevant).foldl assembleStep st := by
  induction ts generalizing st with
  | nil => rfl
  | cons t rest ih =>
      by_cases h : tokenRelevant t = true
      · rw [List.foldl_cons, List.filter_cons_of_pos h, List.foldl_cons, ih]
      · rw [List.foldl_cons,
          assembleStep_irrelevant st (by simpa using h),
          List.filter_cons_of_neg (by simpa using h), ih]

theorem call_tool_go_returns_tool (parse : String → Except String String)
    (tc : ToolCall) (sessions : List Session) :
    ∃ content, call_tool_go parse tc sessions = Message.tool content tc.id := by
  induction sessions with
  | nil => exact ⟨_, rfl⟩
  | cons s rest ih =>
      rw [call_tool_go]
      by_cases hs : (s.tools.any fun t => t.name = tc.name) = true
      · rw [if_pos hs]
        split
        · exact ⟨_, rfl⟩
        · split <;> exact ⟨_, rfl⟩
      · rw [if_neg hs]
        exact ih

/-- C3: the assembler keys slots by stream index, creating a slot with empty
fields on first reference; each id/name/arguments fragment is concatenated
onto its slot's field; materialization sorts slots ascending by index; and
the four-fragment example stream assembles into exactly
`ToolCall{id:"a", name:"search", arguments:"{}"}`. -/
theorem token_assembler_spec :
    (∀ tokens : List Token,
      (sortByIndex (assemble tokens).2).Pairwise fun a b => a.1 ≤ b.1) ∧
    (∀ (tokens : List Token) (i : Int) (s : String),
      slotOf (assemble (tokens ++ [Token.tool_call_id i s])).2 i =
        { slotOf (assemble tokens).2 i with
            id := (slotOf (assemble tokens).2 i).id ++ s }) ∧
    (∀ (tokens : List Token) (i : Int) (s : String),
      slotOf (assemble (tokens ++ [Token.tool_call_name i s])).2 i =
        { slotOf (assemble tokens).2 i with
            name := (slotOf (assemble tokens).2 i).name ++ s }) ∧
    (∀ (tokens : List Token) (i : Int) (s : String),
      slotOf (assemble (tokens ++ [Token.tool_call_arguments i s])).2 i =
        { slotOf (assemble tokens).2 i with
            arguments := (slotOf (assemble tokens).2 i).arguments ++ s }) ∧
    materialize (assemble [Token.tool_call_id 0 "a",
      Token.tool_call_name 0 "se", Token.tool_call_name 0 "arch",
      Token.tool_call_arguments 0 "{}"]).2 = [⟨"a", "search", "{}"⟩] := by
  refine ⟨fun tokens => sorted_sortByIndex _, ?_, ?_, ?_, by decide⟩
  · intro tokens i s
    have h1 : assemble (tokens ++ [Token.tool_call_id i s]) =
        assembleStep (assemble tokens) (Token.tool_call_id i s) := by
      rw [assemble, assemble, List.foldl_append, List.foldl_cons,
        List.foldl_nil]
    rw [h1]
    exact slotOf_bufUpd _ i _
  · intro tokens i s
    have h1 : assemble (tokens ++ [Token.tool_call_name i s]) =
        assembleStep (assemble tokens) (Token.tool_call_name i s) := by
      rw [assemble, assemble, List.foldl_append, List.foldl_cons,
        List.foldl_nil]
    rw [h1]
    exact slotOf_bufUpd _ i _
  · intro tokens i s
    have h1 : assemble (tokens ++ [Token.tool_call_arguments i s]) =
        assembleStep (assemble tokens) (Token.tool_call_arguments i s) := by
      rw [assemble, assemble, List.foldl_append, List.foldl_cons,
        List.foldl_nil]
    rw [h1]
    exact slotOf_bufUpd _ i _

/-- C10: tokens the assembler's dispatch ignores (only `chat_id`) are
re-emitted to the caller untouched (the model phase emits the whole
stream) but contribute nothing to the assembled assistant message: streams
agreeing after dropping ignored tokens assemble the same content and the
same materialized tool calls. -/
theorem chat_id_tokens_inert (ts₁ ts₂ : List Token)
    (h : ts₁.filter tokenRelevant = ts₂.filter tokenRelevant) :
    assemble ts₁ = assemble ts₂ ∧
    materialize (assemble ts₁).2 = materialize (assemble ts₂).2 ∧
    ∀ (env : CtxEnv) (mdl : List Message → List ToolDefinition → List Token)
      (s : AgentState),
      (modelPhase env mdl s).emitted = mdl s.log (tools_definitions env) := by
  have he : assemble ts₁ = assemble ts₂ := by
    rw [assemble, assemble, assemble_foldl_filter, h, ← assemble_foldl_filter]
  exact ⟨he, by rw [he], fun env mdl s => rfl⟩

/-- Witness for the inert-token claim: inserting a `chat_id` token changes
nothing in the assembly. -/
theorem chat_id_tokens_inert_witness :
    ([Token.text "hi"].filter tokenRelevant =
      [Token.chat_id "c", Token.text "hi"].filter tokenRelevant) ∧
    assemble [Token.text "hi"] =
      assemble [Token.chat_id "c", Token.text "hi"] :=
  ⟨by decide,
    (chat_id_tokens_inert [Token.text "hi"]
      [Token.chat_id "c", Token.text "hi"] (by decide)).1⟩

theorem call_tool_go_not_found
    (parse : String → Except String String) (tc : ToolCall)
    (sessions : List Session)
    (h : ∀ s ∈ sessions, (s.tools.any fun t => t.name = tc.name) = false) :
    call_tool_go parse tc sessions =
      Message.tool ("Herramienta '" ++ tc.name ++ "' no encontrada.") tc.id := by
  induction sessions with
  | nil => rfl
  | cons s rest ih =>
      rw [call_tool_go,
        if_neg (by simp [h s (List.mem_cons_self s rest)])]
      exact ih fun s' hs' => h s' (List.mem_cons_of_mem _ hs')

/-- C7: `call_tool` never raises past its boundary: it always returns a
`ToolMessage` echoing the input call id; unparsable JSON arguments, a tool
invocation error, and an unregistered tool name each yield an error-string
`ToolMessage` (and a successful invocation yields its content). -/
theorem call_tool_error_handling :
    (∀ (env : CtxEnv) (tc : ToolCall),
      ∃ content, call_tool env tc = Message.tool content tc.id) ∧
    (∀ (env : CtxEnv) (tc : ToolCall),
      (∀ s ∈ env.sessions, (s.tools.any fun t => t.name = tc.name) = false) →
      call_tool env tc =
        Message.tool ("Herramienta '" ++ tc.name ++ "' no encontrada.")
          tc.id) ∧
    (∀ (parse : String → Except String String) (s : Session)
      (rest : List Session) (tc : ToolCall) (e : String),
      (s.tools.any fun t => t.name = tc.name) = true →
      parse tc.arguments = Except.error e →
      call_tool ⟨parse, s :: rest⟩ tc =
        Message.tool ("Error parseando los parámetros de la herramienta '"
          ++ tc.name ++ "': " ++ e) tc.id) ∧
    (∀ (parse : String → Except String String) (s : Session)
      (rest : List Session) (tc : ToolCall) (args e : String),
      (s.tools.any fun t => t.name = tc.name) = true →
      parse tc.arguments = Except.ok args →
      s.invoke tc.name args = Except.error e →
      call_tool ⟨parse, s :: rest⟩ tc =
        Message.tool ("Error ejecutando la herramienta '" ++ tc.name
          ++ "': " ++ e) tc.id) ∧
    (∀ (parse : String → Except String String) (s : Session)
      (rest : List Session) (tc : ToolCall) (args content : String),
      (s.tools.any fun t => t.name = tc.name) = true →
      parse tc.arguments = Except.ok args →
      s.invoke tc.name args = Except.ok content →
      call_tool ⟨parse, s :: rest⟩ tc = Message.tool content tc.id) := by
  refine ⟨fun env tc => call_tool_go_returns_tool env.parse tc env.sessions,
    fun env tc h => call_tool_go_not_found env.parse tc env.sessions h,
    ?_, ?_, ?_⟩
  · intro parse s rest tc e hs hp
    show call_tool_go parse tc (s :: rest) = _
    rw [call_tool_go, if_pos hs]
    simp only [hp]
  · intro parse s rest tc args e hs hp hi
    show call_tool_go parse tc (s :: rest) = _
    rw [call_tool_go, if_pos hs]
    simp only [hp, hi]
  · intro parse s rest tc args content hs hp hi
    show call_tool_go parse tc (s :: rest) = _
    rw [call_tool_go, if_pos hs]
    simp only [hp, hi]

/-- Witness for the `call_tool` boundary claim: unknown tool, parse
failure, invocation failure, and success at concrete inputs. -/
theorem call_tool_error_handling_witness :
    call_tool ⟨wParse, []⟩ ⟨"1", "x", "{}"⟩ =
      Message.tool "Herramienta 'x' no encontrada." "1" ∧
    call_tool ⟨wParse, [wSessionOk]⟩ ⟨"1", "x", "oops"⟩ =
      Message.tool
        "Error parseando los parámetros de la herramienta 'x': bad json"
        "1" ∧
    call_tool ⟨wParse, [wSessionErr]⟩ ⟨"1", "x", "{}"⟩ =
      Message.tool "Error ejecutando la herramienta 'x': boom" "1" ∧
    call_tool ⟨wParse, [wSessionOk]⟩ ⟨"1", "x", "{}"⟩ =
      Message.tool "ran" "1" :=
  ⟨call_tool_error_handling.2.1 ⟨wParse, []⟩ ⟨"1", "x", "{}"⟩
      (by intro s hs; simp at hs),
    call_tool_error_handling.2.2.1 wParse wSessionOk [] ⟨"1", "x", "oops"⟩
      "bad json" (by decide) rfl,
    call_tool_error_handling.2.2.2.1 wParse wSessionErr [] ⟨"1", "x", "{}"⟩
      "{}" "boom" (by decide) rfl rfl,
    call_tool_error_handling.2.2.2.2 wParse wSessionOk [] ⟨"1", "x", "{}"⟩
      "{}" "ran" (by decide) rfl (by simp [wSessionOk])⟩

/-- C2: when the loaded log has pending tool calls the loop starts in the
tool phase (`model_dirty` false, `context_dirty` true) and the first
iteration invokes no model; it appends one context-produced tool message
per pending call (each echoing its call id) and only then marks the model
dirty. With nothing pending the loop starts in the model phase. -/
theorem orchestrator_initial_phase (env : CtxEnv)
    (mdl : List Message → List ToolDefinition → List Token)
    (log : List Message) :
    (next_pending_tool_calls log ≠ [] →
      (initAgent log).modelDirty = false ∧
      (initAgent log).contextDirty = true ∧
      (loopIter env mdl (initAgent log)).modelInvoked = false ∧
      (loopIter env mdl (initAgent log)).state.log =
        log ++ (next_pending_tool_calls log).map (call_tool env) ∧
      (∀ tc ∈ next_pending_tool_calls log,
        ∃ content, call_tool env tc = Message.tool content tc.id) ∧
      (loopIter env mdl (initAgent log)).state.modelDirty = true) ∧
    (next_pending_tool_calls log = [] →
      (initAgent log).modelDirty = true ∧
      (initAgent log).contextDirty = false) := by
  constructor
  · intro hne
    have he : (next_pending_tool_calls log).isEmpty = false := by
      cases h : next_pending_tool_calls log with
      | nil => exact absurd h hne
      | cons a l => rfl
    refine ⟨by simp [initAgent, he], by simp [initAgent, he], ?_, ?_, ?_, ?_⟩
    · simp [loopIter, initAgent, toolPhase, he]
    · simp [loopIter, initAgent, toolPhase, he]
    · exact fun tc _ => call_tool_go_returns_tool env.parse tc env.sessions
    · simp [loopIter, initAgent, toolPhase, he]
  · intro hnil
    constructor
    · simp [initAgent, hnil]
    · simp [initAgent, hnil]

/-- Witness for the orchestrator start claim: scenario with one unanswered
call (tool phase first, no model invocation) and the empty log (model
phase first). -/
theorem orchestrator_initial_phase_witness :
    next_pending_tool_calls [Message.assistant "" [⟨"1", "x", "{}"⟩]] ≠ [] ∧
    (loopIter wEnvEmpty wMdlNull
      (initAgent [Message.assistant "" [⟨"1", "x", "{}"⟩]])).modelInvoked =
        false ∧
    (loopIter wEnvEmpty wMdlNull
      (initAgent [Message.assistant "" [⟨"1", "x", "{}"⟩]])).state.log =
      [Message.assistant "" [⟨"1", "x", "{}"⟩]] ++
        ([⟨"1", "x", "{}"⟩] : List ToolCall).map (call_tool wEnvEmpty) ∧
    (initAgent ([] : List Message)).modelDirty = true :=
  ⟨by decide,
    ((orchestrator_initial_phase wEnvEmpty wMdlNull
      [Message.assistant "" [⟨"1", "x", "{}"⟩]]).1 (by decide)).2.2.1,
    by
      have h := ((orchestrator_initial_phase wEnvEmpty wMdlNull
        [Message.assistant "" [⟨"1", "x", "{}"⟩]]).1 (by decide)).2.2.2.1
      rw [h]
      rfl,
    ((orchestrator_initial_phase wEnvEmpty wMdlNull ([] : List Message)).2
      (by decide)).1⟩

/-- C8: a model-phase stream with neither a text token nor a tool-call
fragment appends nothing: the log is unchanged, no message is produced in
that iteration, and both dirty flags end false, terminating the loop. -/
theorem empty_stream_no_append (env : CtxEnv)
    (mdl : List Message → List ToolDefinition → List Token)
    (log : List Message) (cache : Option (List ToolCall))
    (h : ∀ t ∈ mdl log (tools_definitions env), tokenRelevant t = false) :
    (loopIter env mdl ⟨log, true, false, cache⟩).state.log = log ∧
    (loopIter env mdl ⟨log, true, false, cache⟩).appendedMessages = [] ∧
    (loopIter env mdl ⟨log, true, false, cache⟩).state.modelDirty = false ∧
    (loopIter env mdl ⟨log, true, false, cache⟩).state.contextDirty = false := by
  have hfilter : (mdl log (tools_definitions env)).filter tokenRelevant = [] := by
    rw [List.filter_eq_nil_iff]
    intro t ht
    simp [h t ht]
  have hassemble : assemble (mdl log (tools_definitions env)) = ("", []) := by
    rw [assemble, assemble_foldl_filter, hfilter]
    rfl
  refine ⟨?_, ?_, ?_, ?_⟩ <;>
    simp [loopIter, modelPhase, hassemble]

/-- Witness for the no-append claim: a stream holding only a `ChatIDToken`
leaves the log untouched. -/
theorem empty_stream_no_append_witness :
    (∀ t ∈ (fun (_ : List Message) (_ : List ToolDefinition) =>
        [Token.chat_id "c"]) [Message.user "hola"]
        (tools_definitions wEnvEmpty), tokenRelevant t = false) ∧
    (loopIter wEnvEmpty
      (fun _ _ => [Token.chat_id "c"])
      ⟨[Message.user "hola"], true, false, none⟩).state.log =
      [Message.user "hola"] :=
  ⟨by decide,
    (empty_stream_no_append wEnvEmpty (fun _ _ => [Token.chat_id "c"])
      [Message.user "hola"] none (by decide)).1⟩

/-- C4 counterexample: with threshold 1, prior log `["a"]`, appending `"b"`
and a model answering the single Text token `"abc"`, the summary message's
content is the fixed header followed by `"abc"` — not the bare Text-token
concatenation the claim states. -/
theorem compaction_summary_counterexample :
    summarizing_add (fun _ _ => [Token.text "abc"]) "p" 1
      [Message.user "a"] (Message.user "b") =
      [Message.user "Resumen de la converzacion:\nabc", Message.user "b"] ∧
    (summarizing_add (fun _ _ => [Token.text "abc"]) "p" 1
      [Message.user "a"] (Message.user "b")).head? ≠
      some (Message.user (concatTextTokens [Token.text "abc"])) :=
  ⟨rfl, by decide⟩

/-- C4 amended: when an append makes the log length exceed
`summary_threshold`, the log becomes one synthetic summary message followed
by the suffix dropping the oldest `summary_threshold` messages (so its
length is the post-append length minus the threshold, plus one), and the
summary content equals the fixed header `"Resumen de la converzacion:\n"`
followed by the concatenated Text tokens of the model invoked over the
overflow prefix plus the instruction message, with no tool definitions. -/
theorem compaction_after_add
    (mdl : List Message → List ToolDefinition → List Token)
    (prompt : String) (threshold : Nat)
    (messages : List Message) (m : Message)
    (h : (messages ++ [m]).length > threshold) :
    summarizing_add mdl prompt threshold messages m =
      Message.user ("Resumen de la converzacion:\n" ++
        concatTextTokens (mdl ((messages ++ [m]).take threshold ++
          [Message.user prompt]) [])) ::
        (messages ++ [m]).drop threshold ∧
    (summarizing_add mdl prompt threshold messages m).length =
      (messages ++ [m]).length - threshold + 1 := by
  constructor
  · rw [summarizing_add, if_pos h]
    rfl
  · rw [summarizing_add, if_pos h]
    show (create_summary mdl prompt threshold (messages ++ [m])).length = _
    simp [create_summary]

/-- Witness for the amended compaction claim at the counterexample's
input. -/
theorem compaction_after_add_witness :
    ([Message.user "a"] ++ [Message.user "b"]).length > 1 ∧
    summarizing_add (fun _ _ => [Token.text "abc"]) "p" 1
      [Message.user "a"] (Message.user "b") =
      Message.user ("Resumen de la converzacion:\n" ++
        concatTextTokens [Token.text "abc"]) ::
        ([Message.user "a"] ++ [Message.user "b"]).drop 1 :=
  ⟨by decide,
    (compaction_after_add (fun _ _ => [Token.text "abc"]) "p" 1
      [Message.user "a"] (Message.user "b") (by decide)).1⟩

end Synapse
